import Mathlib

/-!
Verification development for the StreamCat upstream-accumulation core
(src/StreamCat_functions.py).  The Python functions are shallowly embedded
as executable Lean definitions: pandas/numpy tables become lists of rows,
float cells become `Option ℚ` with `none` standing for the NaN missing
value, and the fallible numpy operations (fancy indexing that can raise
IndexError, column lookups that can raise NameError) return `Option`.
-/

namespace StreamCat

/-! ## FlowGraphBuilder: the UpCOMs dictionary (UpcomDict, lines 93-106)

A Python dict from COMID to list of parent COMIDs is embedded as an
association list with unique keys; `dictGet` is read access, `dictSet`
models assignment `d[k] = v`, and `dictAppend` models
`defaultdict(list); d[k].append(x)`. -/

/-- Association-list read modelling python dict access (first entry wins). -/
def dictGet : List (Int × List Int) → Int → Option (List Int)
  | [], _ => none
  | p :: m, k => if p.1 = k then some p.2 else dictGet m k

/-- Python dict assignment `d[k] = v`: overwrite the entry if the key is
present, otherwise add it. -/
def dictSet : List (Int × List Int) → Int → List Int → List (Int × List Int)
  | [], k, v => [(k, v)]
  | p :: m, k, v => if p.1 = k then (k, v) :: m else p :: dictSet m k v

/-- The `defaultdict(list)` operation `d[k].append(x)`: append to the entry
if the key is present, otherwise create the key with the one-element list. -/
def dictAppend : List (Int × List Int) → Int → Int → List (Int × List Int)
  | [], k, x => [(k, [x])]
  | p :: m, k, x => if p.1 = k then (p.1, p.2 ++ [x]) :: m else p :: dictAppend m k x

/-- One iteration of the edge loop of `UpcomDict` (lines 96-102): a row with
FROMCOMID = 0 executes `UpCOMs[TOCOMID] = []`, any other row executes
`UpCOMs[TOCOMID].append(FROMCOMID)`.  An edge is the pair
(FROMCOMID, TOCOMID). -/
def upcomStep (m : List (Int × List Int)) (e : Int × Int) : List (Int × List Int) :=
  if e.1 = 0 then dictSet m e.2 [] else dictAppend m e.2 e.1

/-- The whole edge loop of `UpcomDict` over the filtered flow table. -/
def UpcomDictLoop (edges : List (Int × Int)) : List (Int × List Int) :=
  edges.foldl upcomStep []

/-- The `defaultdict` read `tree[current]` used by `children` and `bastards`:
a missing key yields the empty list. -/
def treeGet (tree : List (Int × List Int)) (k : Int) : List Int :=
  (dictGet tree k).getD []

/-! ## AncestorClosureComputer: children and bastards (lines 110-162)

The Python BFS loop (deque + visited set) is embedded with explicit fuel;
`fuelBound` is an a-priori sufficient number of loop iterations (proved
below), so the fuelled run models the terminating Python loop exactly.
The visited set is kept as a duplicate-free list in insertion order. -/

/-- The BFS loop body of `children`/`bastards` (lines 122-130): pop the head
of the queue, skip it if already visited, otherwise mark it visited and
push its not-yet-visited parents (a set, hence `dedup`) onto the queue.
Fuel 0 with a nonempty queue means the iteration budget was exhausted. -/
def bfsAux (tree : List (Int × List Int)) : Nat → List Int → List Int → Option (List Int)
  | 0, [], visited => some visited
  | 0, _ :: _, _ => none
  | _ + 1, [], visited => some visited
  | fuel + 1, c :: q, visited =>
    if c ∈ visited then bfsAux tree fuel q visited
    else
      bfsAux tree fuel
        (((treeGet tree c).dedup.filter (fun x => decide (x ∉ visited ++ [c]))) ++ q)
        (visited ++ [c])

/-- Iteration budget sufficient for the BFS loop: one pop for the start
token plus at most one enqueue per stored parent id. -/
def fuelBound (tree : List (Int × List Int)) : Nat :=
  (tree.map (fun p => p.2.length)).sum + 1

/-- The full BFS traversal from a start token (the `while to_crawl` loop of
lines 123-130 run to completion). -/
def bfsRun (tree : List (Int × List Int)) (token : Int) : List Int :=
  (bfsAux tree (fuelBound tree) [token] []).getD []

/-- The optional intersection with the catchment universe
(`visited.intersection(chkset)`, lines 132-133 and 160-161). -/
def applyChk (chkset : Option (List Int)) (visited : List Int) : List Int :=
  match chkset with
  | none => visited
  | some chk => visited.filter (fun x => decide (x ∈ chk))

/-- Function `children` (lines 110-134): inclusive ancestor closure of `token`,
optionally intersected with the universe `chkset`. -/
def children (token : Int) (tree : List (Int × List Int)) (chkset : Option (List Int)) :
    List Int :=
  applyChk chkset (bfsRun tree token)

/-- Function `bastards` (lines 138-162): as `children` but with
`visited.remove(token)` before the optional intersection. -/
def bastards (token : Int) (tree : List (Int × List Int)) (chkset : Option (List Int)) :
    List Int :=
  applyChk chkset ((bfsRun tree token).erase token)

/-- Total stored-parent weight of one source key: the summed lengths of the
adjacency entries whose key is `c` (a proof-side potential, not source
code). -/
def srcWeight : List (Int × List Int) → Int → Nat
  | [], _ => 0
  | p :: m, c => (if p.1 = c then p.2.length else 0) + srcWeight m c

/-- Remaining BFS work: the summed lengths of the adjacency entries whose
key has not been visited yet (a proof-side potential, not source code). -/
def keyCost : List (Int × List Int) → List Int → Nat
  | [], _ => 0
  | p :: m, visited => (if p.1 ∈ visited then 0 else p.2.length) + keyCost m visited

/-! ## Node sets built by makeNumpyVectors (lines 887-922) -/

/-- The concatenated catchment id array of lines 890-901:
region tables are concatenated and `AllCOMs = AllCOMs[np.nonzero(AllCOMs)]`
drops the zeros. -/
def allCatCOMs (regionTables : List (List Int)) : List Int :=
  regionTables.flatten.filter (fun x => decide (x ≠ 0))

/-- The catchment universe of lines 903-905: `cats = set(cat)` followed by
`cats.discard(0)`.  The set is kept as a duplicate-free list. -/
def catsUniverse (cat : List Int) : List Int :=
  cat.dedup.filter (fun x => decide (x ≠ 0))

/-- The per-zone query COMID array of lines 919-922: catchment ids with the
whitelisted through-COMIDs appended, then
`if 0 in COMIDs: COMIDs = np.delete(COMIDs, np.where(COMIDs == 0))`. -/
def zoneCOMIDs (catchIdx thru : List Int) : List Int :=
  let l := catchIdx ++ thru
  if (0 : Int) ∈ l then l.filter (fun x => decide (x ≠ 0)) else l

/-! ## swapper (lines 856-870)

`bsort = np.argsort(coms)`, `apos = np.searchsorted(coms[bsort], upStream)`,
`indices = bsort[apos]`.  `argsort` is embedded as an insertion sort of the
index list `range n` ordered by the indexed value; `searchsorted` (side
`left`) on the sorted array is the count of entries strictly below the
probe; fancy indexing `bsort[apos]` is `List.get?`, `none` standing for the
IndexError raised when a probe exceeds every entry. -/

/-- The sort key of `argsort`: the value of `coms` at an index. -/
def keyOf (coms : List Int) (i : Nat) : Int := coms.getD i 0

/-- Insert index `i` into an index list sorted by the values of `coms`. -/
def insertIdx (coms : List Int) (i : Nat) : List Nat → List Nat
  | [] => [i]
  | j :: js => if keyOf coms i ≤ keyOf coms j then i :: j :: js else j :: insertIdx coms i js

/-- Embedding of `np.argsort(coms)`: a permutation of `range coms.length` listing the
positions of `coms` in ascending order of value. -/
def argsort (coms : List Int) : List Nat :=
  (List.range coms.length).foldr (insertIdx coms) []

/-- Embedding of `np.searchsorted(sorted, v)` with side `left`: on a sorted array, the
first position whose entry is not below `v`. -/
def searchsorted : List Int → Int → Nat
  | [], _ => 0
  | a :: rest, v => if a < v then searchsorted rest v + 1 else 0

/-- Function `swapper` (lines 856-870): for each upstream id, the position in `coms`
found by binary search over the argsorted values.  `none` models the
IndexError of `bsort[apos]` when the probe is past the end. -/
def swapper (coms upStream : List Int) : List (Option Nat) :=
  let bsort := argsort coms
  let sortedComs := bsort.map (keyOf coms)
  upStream.map (fun u => bsort.get? (searchsorted sortedComs u))

/-! ## Executable rational arithmetic

The float arithmetic of the numpy reductions is modelled over `ℚ`.  The
field operations of `ℚ` are wrapped in `mkRat`-based equivalents (proved
equal to the field operations below) so that every concrete run of the
engine can be evaluated by the kernel. -/

/-- Addition on `ℚ` through `mkRat`. -/
def qAdd (a b : ℚ) : ℚ := mkRat (a.num * b.den + b.num * a.den) (a.den * b.den)

/-- Subtraction on `ℚ` through `mkRat`. -/
def qSub (a b : ℚ) : ℚ := mkRat (a.num * b.den - b.num * a.den) (a.den * b.den)

/-- Multiplication on `ℚ` through `mkRat`. -/
def qMul (a b : ℚ) : ℚ := mkRat (a.num * b.num) (a.den * b.den)

/-- Inverse on `ℚ` through `mkRat`. -/
def qInv (b : ℚ) : ℚ :=
  mkRat (if b.num < 0 then -(b.den : Int) else (b.den : Int)) b.num.natAbs

/-- Division on `ℚ` through `mkRat`. -/
def qDiv (a b : ℚ) : ℚ := qMul a (qInv b)

/-- Sum of a list of rationals through `qAdd`. -/
def qSum (xs : List ℚ) : ℚ := xs.foldr qAdd 0

/-! ## Executable string helpers

The python substring test `pat in s` and `str.replace` are embedded
structurally over the character lists of the strings. -/

/-- Test whether `pat` is a prefix of `s`. -/
def isPrefixList : List Char → List Char → Bool
  | [], _ => true
  | _ :: _, [] => false
  | p :: ps, c :: cs => p == c && isPrefixList ps cs

/-- Test whether `pat` occurs inside the character list. -/
def containsList (pat : List Char) : List Char → Bool
  | [] => isPrefixList pat []
  | c :: cs => isPrefixList pat (c :: cs) || containsList pat cs

/-- Replace every non-overlapping occurrence of `pat` (leftmost first) by
`rep`, python `str.replace`; the fuel is the length of the text, enough
because every step consumes at least one character. -/
def replaceFuel (pat rep : List Char) : Nat → List Char → List Char
  | 0, l => l
  | _ + 1, [] => []
  | fuel + 1, c :: rest =>
    if isPrefixList pat (c :: rest) && !pat.isEmpty then
      rep ++ replaceFuel pat rep fuel (rest.drop (pat.length - 1))
    else c :: replaceFuel pat rep fuel rest

/-- Python `s.replace(pat, rep)`. -/
def strReplace (s pat rep : String) : String :=
  ⟨replaceFuel pat.data rep.data s.data.length s.data⟩

/-! ## AccumulationEngine (Accumulation, lines 631-682)

A metric table `arr` is a COMID list plus named value columns; a cell is
`Option ℚ`, `none` being NaN. -/

/-- The metric table `arr`: `comids` is the COMID column, `cols` the named
value columns (`arr.columns[1:]`), each aligned with `comids`. -/
structure CatTable where
  comids : List Int
  cols : List (String × List (Option ℚ))
deriving DecidableEq

/-- Python substring test `pat in name`. -/
def colHas (name pat : String) : Bool :=
  containsList pat.data name.data

/-- Embedding of `np.nansum`: sum of a slice with NaN contributing zero. -/
def nansum (xs : List (Option ℚ)) : ℚ :=
  qSum (xs.map (fun o => o.getD 0))

/-- Embedding of `np.ma.average(np.nan_to_num(vals), weights=wts)` (line 664): NaN values
are zeroed before the weighted average; a NaN weight poisons the result and
a zero weight total leaves the average undefined (masked), both `none`. -/
def maAverage (vals wts : List (Option ℚ)) : Option ℚ :=
  if wts.any (fun w => w.isNone) then none
  else
    let ws := wts.map (fun o => o.getD 0)
    if qSum ws = 0 then none
    else some (qDiv (qSum (List.zipWith (fun v w => qMul (Option.getD v 0) w) vals ws)) (qSum ws))

/-- The non-PctFull reduction of lines 667-670: `np.nansum` over each
`lengths`-delimited slice of the resolved value vector. -/
def segSum : List Nat → List (Option ℚ) → List (Option ℚ)
  | [], _ => []
  | n :: ns, d => some (nansum (d.take n)) :: segSum ns (d.drop n)

/-- The PctFull reduction of lines 659-665: area-weighted `np.ma.average`
over each `lengths`-delimited slice. -/
def segAvg : List Nat → List (Option ℚ) → List (Option ℚ) → List (Option ℚ)
  | [], _, _ => []
  | n :: ns, d, ar => maAverage (d.take n) (ar.take n) :: segAvg ns (d.drop n) (ar.drop n)

/-- Accumulation of one column (the body of the loop at lines 654-671):
resolve the column through `indices`, then reduce per slice — an
area-weighted average when the name contains PctFull (the weights being the
resolved second table column, `arr.ix[:, 1]`), a NaN-safe sum otherwise. -/
def accumColumn (arr : CatTable) (indices lengths : List Nat)
    (nc : String × List (Option ℚ)) : List (Option ℚ) :=
  let d := indices.map (fun i => nc.2.getD i none)
  if colHas nc.1 "PctFull" then
    let area := (arr.cols.getD 0 ("", [])).2
    let ar := indices.map (fun i => area.getD i none)
    segAvg lengths d ar
  else
    segSum lengths d

/-- All accumulated columns of the table, in column order. -/
def accumCells (arr : CatTable) (indices lengths : List Nat) : List (List (Option ℚ)) :=
  arr.cols.map (accumColumn arr indices lengths)

/-- Assembly of `outT` (lines 650-652, 671): one row per query COMID, the
accumulated value per column, positions past the reduced prefix keeping the
`np.zeros` initial value. -/
def buildRows (COMIDs : List Int) (zcols : List (List (Option ℚ))) :
    List (Int × List (Option ℚ)) :=
  (List.range COMIDs.length).map
    (fun i => (COMIDs.getD i 0, zcols.map (fun z => z.getD i (some 0))))

/-- Column renaming of lines 674-677: `Ws` replaces every occurrence of
`Cat`, `UpCat` prepends `Up`; any other table type leaves the integer
default column labels in place, making the later name lookups fail. -/
def renameCols (cols : List String) (ty : String) : Option (List String) :=
  if ty = "Ws" then some (cols.map (fun n => strReplace n "Cat" "Ws"))
  else if ty = "UpCat" then some (cols.map (fun n => "Up" ++ n))
  else none

/-- The area-column search of lines 678-680: the last output column (the
full header, COMID included) whose name contains `AreaSqKm`; `none` models
the NameError when no column matches. -/
def lastAreaIdx (names : List String) : Option Nat :=
  ((("COMID" :: names).enum.filter (fun p => colHas p.2 "AreaSqKm")).getLast?).map Prod.fst

/-- Read an output-row cell at a full-header position: position 0 is the
COMID itself (stored as a float in `outT`), later positions index the value
list. -/
def fullCell (r : Int × List (Option ℚ)) (j : Nat) : Option ℚ :=
  if j = 0 then some ((r.1 : ℚ)) else r.2.getD (j - 1) none

/-- The zero-area masking of line 681: a row whose area cell is the number
zero has every cell from full-header position 2 on replaced by NaN; the
COMID and the cell at position 1 are left as they are. -/
def maskRow (aIdx : Nat) (r : Int × List (Option ℚ)) : Int × List (Option ℚ) :=
  if fullCell r aIdx = some 0 then
    (r.1, match r.2 with
          | [] => []
          | v :: vs => v :: vs.map (fun _ => (none : Option ℚ)))
  else r

/-- The accumulated output table: renamed value-column names and one row
per surviving COMID. -/
structure OutTable where
  colNames : List String
  rows : List (Int × List (Option ℚ))
deriving DecidableEq

/-- Function `Accumulation` (lines 631-682): resolve indices with `swapper` (`none`
on an IndexError, also when `z[i]` would overflow `COMIDs`), accumulate
every column per closure slice, keep only rows whose COMID is in the metric
table (line 672), rename the columns, and apply the zero-area masking. -/
def Accumulation (arr : CatTable) (COMIDs : List Int) (lengths : List Nat)
    (upStream : List Int) (ty : String) : Option OutTable :=
  let oidx := swapper arr.comids upStream
  if oidx.any (fun o => o.isNone) then none
  else if COMIDs.length < lengths.length then none
  else
    let indices := oidx.map (fun o => o.getD 0)
    let rows := (buildRows COMIDs (accumCells arr indices lengths)).filter
      (fun r => decide (r.1 ∈ arr.comids))
    match renameCols (arr.cols.map Prod.fst) ty with
    | none => none
    | some names =>
      match lastAreaIdx names with
      | none => none
      | some aIdx => some ⟨names, rows.map (maskRow aIdx)⟩

/-! ## InterVPU adjuster: AdjustCOMs (lines 613-629)

The working tables of `interVPU` are COMID-indexed frames: the id is the
index, not a column. -/

/-- A COMID-indexed working table: named value columns and one value list
per row. -/
structure VTable where
  cols : List String
  rows : List (Int × List (Option ℚ))
deriving DecidableEq

/-- Float subtraction with NaN propagation. -/
def subCell : Option ℚ → Option ℚ → Option ℚ
  | some x, some y => some (qSub x y)
  | _, _ => none

/-- Embedding of `tbl.ix[comid, name]`: the cell of the first row labelled `comid` in
the column called `name`; `none` when either the row or the column is
missing (or the cell is NaN). -/
def vLookup (t : VTable) (c : Int) (name : String) : Option ℚ :=
  match t.rows.find? (fun r => decide (r.1 = c)) with
  | none => none
  | some r =>
    match t.cols.enum.find? (fun p => decide (p.2 = name)) with
    | none => none
    | some p => r.2.getD p.1 none

/-- The first row labelled `c`. -/
def getRow (t : VTable) (c : Int) : Option (Int × List (Option ℚ)) :=
  t.rows.find? (fun r => decide (r.1 = c))

/-- The column loop of `AdjustCOMs` (lines 628-629) applied to one row:
every column except the last (`tbl.columns[:-1]`) has the comid2 value of
`t2` subtracted; the last column is left unchanged. -/
def adjustRowVals (cols : List String) (t2 : VTable) (comid2 : Int)
    (vals : List (Option ℚ)) : List (Option ℚ) :=
  cols.enum.map (fun p =>
    if p.1 + 1 < cols.length then subCell (vals.getD p.1 none) (vLookup t2 comid2 p.2)
    else vals.getD p.1 none)

/-- Function `AdjustCOMs` (lines 613-629): subtract the comid2 row of `tbl2` from
the comid1 row of `tbl` in every column but the last, `tbl2` defaulting to
a copy of `tbl` taken before the loop. -/
def AdjustCOMs (tbl : VTable) (comid1 comid2 : Int) (tbl2 : Option VTable) : VTable :=
  let t2 := tbl2.getD tbl
  ⟨tbl.cols,
   tbl.rows.map (fun r =>
     if r.1 = comid1 then (r.1, adjustRowVals tbl.cols t2 comid2 r.2) else r)⟩

/-! ## Helper lemmas: the mkRat arithmetic agrees with the field of ℚ -/

theorem qAdd_eq (a b : ℚ) : qAdd a b = a + b := (Rat.add_def' a b).symm

theorem qSub_eq (a b : ℚ) : qSub a b = a - b := (Rat.sub_def' a b).symm

theorem qMul_eq (a b : ℚ) : qMul a b = a * b := (Rat.mul_eq_mkRat a b).symm

theorem qInv_eq (b : ℚ) : qInv b = b⁻¹ := by
  unfold qInv
  rw [Rat.inv_def', Rat.mkRat_eq_divInt]
  by_cases h : b.num < 0
  · rw [if_pos h]
    have habs : ((b.num.natAbs : Int)) = -b.num := by
      rw [Int.natCast_natAbs, abs_of_neg h]
    rw [habs, Rat.neg_divInt_neg]
  · rw [if_neg h]
    have habs : ((b.num.natAbs : Int)) = b.num := by
      rw [Int.natCast_natAbs, abs_of_nonneg (not_lt.mp h)]
    rw [habs]

theorem qDiv_eq (a b : ℚ) : qDiv a b = a / b := by
  rw [qDiv, qMul_eq, qInv_eq, div_eq_mul_inv]

theorem qSum_eq (xs : List ℚ) : qSum xs = xs.sum := by
  induction xs with
  | nil => rfl
  | cons x xs ih => simp [qSum, List.sum_cons, qAdd_eq] at ih ⊢; rw [ih]

/-! ## Helper lemmas: python dict operations -/

theorem dictGet_dictSet_self (m : List (Int × List Int)) (k : Int) (v : List Int) :
    dictGet (dictSet m k v) k = some v := by
  induction m with
  | nil => simp [dictGet, dictSet]
  | cons p m ih =>
    by_cases h : p.1 = k
    · simp [dictSet, h, dictGet]
    · simp [dictSet, h, dictGet, ih]

theorem dictGet_dictSet_ne (m : List (Int × List Int)) (k j : Int) (v : List Int)
    (hjk : j ≠ k) : dictGet (dictSet m k v) j = dictGet m j := by
  induction m with
  | nil =>
    have hkj : ¬ k = j := fun hh => hjk hh.symm
    simp [dictGet, dictSet, hkj]
  | cons p m ih =>
    by_cases h : p.1 = k
    · subst h
      have hpj : ¬ p.1 = j := fun hh => hjk hh.symm
      simp [dictSet, dictGet, hpj]
    · simp only [dictSet, if_neg h, dictGet]
      by_cases hj : p.1 = j
      · simp [hj]
      · simp [hj, ih]

/-- C7: a row with fromCOMID = 0 marks its toCOMID as a key whose parent
list is empty at that point, and adds no parent to any adjacency list:
every other key is left untouched. -/
theorem upcom_zero_from_marks_headwater (m : List (Int × List Int)) (t k : Int) :
    dictGet (upcomStep m (0, t)) t = some [] ∧
    (k ≠ t → dictGet (upcomStep m (0, t)) k = dictGet m k) := by
  constructor
  · show dictGet (dictSet m t []) t = some []
    exact dictGet_dictSet_self m t []
  · intro hk
    show dictGet (dictSet m t []) k = dictGet m k
    exact dictGet_dictSet_ne m t k [] hk

/-- Witness for C7: a concrete dictionary state, a fromCOMID = 0 row for
node 9, and the untouched key 5. -/
theorem upcom_zero_from_marks_headwater_witness :
    dictGet (upcomStep [(5, [2])] (0, 9)) 9 = some [] ∧
    dictGet (upcomStep [(5, [2])] (0, 9)) 5 = dictGet [(5, [2])] 5 :=
  ⟨(upcom_zero_from_marks_headwater [(5, [2])] 9 5).1,
   (upcom_zero_from_marks_headwater [(5, [2])] 9 5).2 (by decide)⟩

/-! ## C8: node sets and zero/negative ids -/

/-- C8 counterexample: a catchment table holding the negative id -5 sends
-5 into both the per-zone query array and the catchment universe, so the
constructed node sets are not free of negative ids. -/
theorem node_sets_admit_negative :
    (-5 : Int) ∈ zoneCOMIDs [-5] [] ∧
    (-5 : Int) ∈ catsUniverse (allCatCOMs [[-5, 3]]) ∧ (-5 : Int) < 0 := by
  decide

/-- C8 amended: the node sets built by makeNumpyVectors never contain the
id zero (zeros are deleted or discarded); negative ids are not filtered. -/
theorem node_sets_no_zero (catchIdx thru : List Int) (regions : List (List Int))
    (cat : List Int) :
    (0 : Int) ∉ zoneCOMIDs catchIdx thru ∧ (0 : Int) ∉ allCatCOMs regions ∧
    (0 : Int) ∉ catsUniverse cat := by
  refine ⟨?_, ?_, ?_⟩
  · intro hmem
    simp only [zoneCOMIDs] at hmem
    split at hmem
    · have := List.of_mem_filter hmem
      simp at this
    · next h => exact h hmem
  · intro hmem
    have := List.of_mem_filter hmem
    simp at this
  · intro hmem
    have := List.of_mem_filter hmem
    simp at this

/-! ## C1: the two-tributary scenario -/

/-- C1: with edges A→C and B→C (A = 1, B = 2, C = 3), each catchment having
AreaSqKm 1 and Metric 10, running the closure computation and the
accumulation gives Ws(C) with Metric 30 and AreaSqKm 3, and UpCat(C) with
Metric 20 and AreaSqKm 2. -/
theorem accumulation_two_tributary_scenario :
    (let tree : List (Int × List Int) := [(3, [1, 2])]
     let arr : CatTable :=
       ⟨[1, 2, 3], [("CatAreaSqKm", [some 1, some 1, some 1]),
                    ("CatMetric", [some 10, some 10, some 10])]⟩
     let ws := List.map (fun x => children x tree none) [1, 2, 3]
     let up := List.map (fun x => bastards x tree none) [1, 2, 3]
     Accumulation arr [1, 2, 3] (ws.map List.length) ws.flatten "Ws"
       = some ⟨["WsAreaSqKm", "WsMetric"],
               [(1, [some 1, some 10]), (2, [some 1, some 10]),
                (3, [some 3, some 30])]⟩ ∧
     Accumulation arr [1, 2, 3] (up.map List.length) up.flatten "UpCat"
       = some ⟨["UpCatAreaSqKm", "UpCatMetric"],
               [(1, [some 0, none]), (2, [some 0, none]),
                (3, [some 2, some 20])]⟩) := by
  decide

/-! ## C5: area-weighted PctFull aggregation -/

theorem zipWith_all_100 (vals ws : List ℚ) (hlen : vals.length = ws.length)
    (hv : ∀ v ∈ vals, v = (100 : ℚ)) :
    (List.zipWith (fun v w => v * w) vals ws).sum = 100 * ws.sum := by
  induction vals generalizing ws with
  | nil =>
    have : ws = [] := by
      cases ws with
      | nil => rfl
      | cons w ws => simp at hlen
    simp [this]
  | cons v vs ih =>
    cases ws with
    | nil => simp at hlen
    | cons w ws =>
      have hv0 : v = (100 : ℚ) := hv v (List.mem_cons_self v vs)
      have hlen2 : vs.length = ws.length := by simpa using hlen
      have ihs := ih ws hlen2 (fun x hx => hv x (List.mem_cons_of_mem v hx))
      simp only [List.zipWith_cons_cons, List.sum_cons, ihs, hv0]
      ring

/-- C5 amended: the area-weighted PctFull average computed by Accumulation
(the `np.ma.average` call of line 664, embedded as `maAverage` and applied
by `accumColumn` to every PctFull column) returns 100 whenever every
member of the closure slice has PctFull = 100, no weight is NaN, and the
weights have a nonzero sum; with a zero weight total the average is
undefined (masked), not 100. -/
theorem maAverage_all_100 (vals wts : List (Option ℚ))
    (hv : ∀ v ∈ vals, v = some (100 : ℚ))
    (hw : ∀ w ∈ wts, w.isSome)
    (hlen : vals.length = wts.length)
    (hs : (wts.map (fun o => o.getD 0)).sum ≠ 0) :
    maAverage vals wts = some 100 := by
  have hnone : ¬ (wts.any (fun w => w.isNone) = true) := by
    simp only [List.any_eq_true]
    rintro ⟨w, hwm, hwn⟩
    cases w with
    | none => simpa using hw none hwm
    | some x => simp [Option.isNone] at hwn
  simp only [maAverage]
  rw [if_neg hnone, if_neg (by rw [qSum_eq]; exact hs)]
  congr 1
  rw [qDiv_eq, qSum_eq, qSum_eq]
  simp only [qMul_eq]
  have hzip : (List.zipWith (fun v w => (Option.getD v 0) * w) vals
      (wts.map (fun o => o.getD 0))).sum
      = 100 * (wts.map (fun o => o.getD 0)).sum := by
    have hlen2 : (vals.map (fun o => Option.getD o 0)).length
        = (wts.map (fun o => o.getD 0)).length := by simpa using hlen
    have hv2 : ∀ v ∈ vals.map (fun o => Option.getD o 0), v = (100 : ℚ) := by
      intro v hvm
      obtain ⟨o, ho, rfl⟩ := List.mem_map.mp hvm
      rw [hv o ho]
      rfl
    have := zipWith_all_100 (vals.map (fun o => Option.getD o 0))
      (wts.map (fun o => o.getD 0)) hlen2 hv2
    rw [← this]
    congr 1
    rw [List.zipWith_map_left]
  rw [hzip, mul_div_assoc, div_self hs, mul_one]

/-- Witness for the amended C5: two members with PctFull 100 and unequal
area weights 1 and 3 average to 100. -/
theorem maAverage_all_100_witness :
    maAverage [some 100, some 100] [some 1, some 3] = some 100 :=
  maAverage_all_100 [some 100, some 100] [some 1, some 3]
    (by decide) (by decide) rfl
    (by norm_num [List.sum_cons, List.sum_nil])

/-- C5 counterexample: a one-member closure whose member has PctFull = 100
but area weight 0.  The claim predicts a PctFull output of 100 regardless
of the weights; the code leaves the cell undefined (masked NaN), shown
here on the whole Accumulation run. -/
theorem pctfull_zero_weights_not_100 :
    Accumulation ⟨[7], [("CatAreaSqKm", [some 0]), ("CatPctFull", [some 100])]⟩
        [7] [1] [7] "Ws"
      = some ⟨["WsAreaSqKm", "WsPctFull"], [(7, [some 0, none])]⟩ ∧
    (none : Option ℚ) ≠ some 100 := by
  constructor
  · decide
  · decide

/-! ## C3: AdjustCOMs -/

theorem find?_adjust_rows (c1 : Int) (f : Int × List (Option ℚ) → List (Option ℚ))
    (l : List (Int × List (Option ℚ))) :
    (l.map (fun r => if r.1 = c1 then (r.1, f r) else r)).find?
        (fun r => decide (r.1 = c1))
      = (l.find? (fun r => decide (r.1 = c1))).map
          (fun r => if r.1 = c1 then (r.1, f r) else r) := by
  induction l with
  | nil => rfl
  | cons p l ih =>
    by_cases h : p.1 = c1
    · simp [List.find?, h]
    · simp [List.find?, h, ih]

theorem adjustRowVals_getD (cols : List String) (t2 : VTable) (c2 : Int)
    (vals : List (Option ℚ)) (p : Nat) (hp : p < cols.length) :
    (adjustRowVals cols t2 c2 vals).getD p none
      = if p + 1 < cols.length then
          subCell (vals.getD p none) (vLookup t2 c2 (cols.getD p ""))
        else vals.getD p none := by
  unfold adjustRowVals
  rw [List.getD_eq_getElem?_getD, List.getElem?_map, List.getElem?_enum]
  rw [List.getElem?_eq_getElem hp]
  simp only [Option.map_some', Option.getD_some]
  rw [List.getD_eq_getElem _ _ hp]

/-- C3 counterexample: a working table with columns WsAreaSqKm, WsMetric,
WsPctFull.  The claim predicts that the area column is left untouched and
the PctFull column is adjusted; the code subtracts in the area column
(5 - 2 = 3) and leaves the final PctFull column unchanged (50). -/
theorem adjustcoms_subtracts_area_keeps_last :
    (let tbl : VTable := ⟨["WsAreaSqKm", "WsMetric", "WsPctFull"],
       [(1, [some 5, some 7, some 50]), (2, [some 2, some 3, some 20])]⟩
     vLookup (AdjustCOMs tbl 1 2 none) 1 "WsAreaSqKm" = some 3 ∧
     vLookup (AdjustCOMs tbl 1 2 none) 1 "WsAreaSqKm" ≠ vLookup tbl 1 "WsAreaSqKm" ∧
     vLookup (AdjustCOMs tbl 1 2 none) 1 "WsPctFull" = some 50 ∧
     vLookup (AdjustCOMs tbl 1 2 none) 1 "WsPctFull"
       ≠ subCell (vLookup tbl 1 "WsPctFull") (vLookup tbl 2 "WsPctFull")) := by
  refine ⟨by decide, by decide, by decide, by decide⟩

/-- C3 amended: for a table containing a row labelled comid1, AdjustCOMs
subtracts the comid2 value of tbl2 (defaulting to tbl itself) from the
comid1 row in every column except the last one; the last column is left
unchanged.  The id is the frame index, not a column. -/
theorem adjustcoms_all_but_last_column (tbl : VTable) (c1 c2 : Int)
    (tbl2 : Option VTable) (r : Int × List (Option ℚ)) (hr : getRow tbl c1 = some r) :
    ∃ v, getRow (AdjustCOMs tbl c1 c2 tbl2) c1 = some (r.1, v) ∧
      (∀ p, p + 1 < tbl.cols.length →
        v.getD p none
          = subCell (r.2.getD p none) (vLookup (tbl2.getD tbl) c2 (tbl.cols.getD p ""))) ∧
      (tbl.cols.length ≠ 0 →
        v.getD (tbl.cols.length - 1) none = r.2.getD (tbl.cols.length - 1) none) := by
  have hr1 : r.1 = c1 := by
    have := List.find?_some hr
    simpa using this
  refine ⟨adjustRowVals tbl.cols (tbl2.getD tbl) c2 r.2, ?_, ?_, ?_⟩
  · have hgr : getRow (AdjustCOMs tbl c1 c2 tbl2) c1
        = (tbl.rows.find? (fun r => decide (r.1 = c1))).map
            (fun r => if r.1 = c1 then (r.1, adjustRowVals tbl.cols (tbl2.getD tbl) c2 r.2) else r) := by
      unfold getRow AdjustCOMs
      rw [find?_adjust_rows]
    rw [hgr]
    have hfind : tbl.rows.find? (fun r => decide (r.1 = c1)) = some r := hr
    rw [hfind]
    simp only [Option.map_some']
    rw [if_pos hr1]
  · intro p hp
    rw [adjustRowVals_getD tbl.cols (tbl2.getD tbl) c2 r.2 p (by omega)]
    rw [if_pos hp]
  · intro h0
    rw [adjustRowVals_getD tbl.cols (tbl2.getD tbl) c2 r.2 (tbl.cols.length - 1) (by omega)]
    rw [if_neg (by omega)]

/-- Witness for the amended C3: a concrete two-row table; position 0 is
adjusted and the final position is kept. -/
theorem adjustcoms_all_but_last_column_witness :
    ∃ v, getRow (AdjustCOMs ⟨["A", "B"], [(1, [some 5, some 7]), (2, [some 2, some 3])]⟩
          1 2 none) 1 = some (1, v) ∧
      (∀ p, p + 1 < (["A", "B"] : List String).length →
        v.getD p none
          = subCell ((([some 5, some 7] : List (Option ℚ))).getD p none)
              (vLookup (Option.getD none ⟨["A", "B"], [(1, [some 5, some 7]), (2, [some 2, some 3])]⟩)
                2 ((["A", "B"] : List String).getD p ""))) ∧
      ((["A", "B"] : List String).length ≠ 0 →
        v.getD ((["A", "B"] : List String).length - 1) none
          = (([some 5, some 7] : List (Option ℚ))).getD ((["A", "B"] : List String).length - 1) none) :=
  adjustcoms_all_but_last_column
    ⟨["A", "B"], [(1, [some 5, some 7]), (2, [some 2, some 3])]⟩ 1 2 none
    (1, [some 5, some 7]) (by decide)

/-! ## Accumulation structure lemmas, C6 and C2 -/

theorem accumulation_eq_some (arr : CatTable) (COMIDs : List Int) (lengths : List Nat)
    (upStream : List Int) (ty : String) (out : OutTable)
    (h : Accumulation arr COMIDs lengths upStream ty = some out) :
    ∃ names aIdx,
      renameCols (arr.cols.map Prod.fst) ty = some names ∧
      lastAreaIdx names = some aIdx ∧
      out = ⟨names,
        ((buildRows COMIDs (accumCells arr
            ((swapper arr.comids upStream).map (fun o => o.getD 0)) lengths)).filter
          (fun r => decide (r.1 ∈ arr.comids))).map (maskRow aIdx)⟩ := by
  simp only [Accumulation] at h
  split at h
  · cases h
  · split at h
    · cases h
    · split at h
      · cases h
      · split at h
        · cases h
        · rename_i names hrn x aIdx hla
          exact ⟨names, aIdx, hrn, hla, (Option.some.inj h).symm⟩

theorem maskRow_fst (aIdx : Nat) (r : Int × List (Option ℚ)) :
    (maskRow aIdx r).1 = r.1 := by
  unfold maskRow
  split <;> rfl

/-- C6: every row of the Accumulation output carries a COMID that is both
one of the query COMIDs and present in the metric table, so a synthetic
traversal-only node (absent from the metric table) never reaches the
output. -/
theorem accumulation_rows_in_query_and_table (arr : CatTable) (COMIDs : List Int)
    (lengths : List Nat) (upStream : List Int) (ty : String) (out : OutTable)
    (h : Accumulation arr COMIDs lengths upStream ty = some out) :
    ∀ r ∈ out.rows, r.1 ∈ COMIDs ∧ r.1 ∈ arr.comids := by
  obtain ⟨names, aIdx, hrn, hla, hout⟩ := accumulation_eq_some _ _ _ _ _ _ h
  subst hout
  intro r hr
  obtain ⟨r0, hr0, hmask⟩ := List.mem_map.mp hr
  have hfst : r.1 = r0.1 := by rw [← hmask, maskRow_fst]
  have hfil := List.mem_filter.mp hr0
  have hin : r0.1 ∈ arr.comids := by simpa using hfil.2
  have hbuild := hfil.1
  simp only [buildRows] at hbuild
  obtain ⟨i, hi, hr0eq⟩ := List.mem_map.mp hbuild
  have hilen : i < COMIDs.length := List.mem_range.mp hi
  have hr01 : r0.1 = COMIDs.getD i 0 := by rw [← hr0eq]
  refine ⟨?_, by rw [hfst]; exact hin⟩
  rw [hfst, hr01, List.getD_eq_getElem _ _ hilen]
  exact List.getElem_mem _

/-- Witness for C6: a run with the synthetic query node 99 that has no row
in the metric table; the surviving row for COMID 3 is in both node sets. -/
theorem accumulation_rows_in_query_and_table_witness :
    (3 : Int) ∈ ([1, 2, 3, 99] : List Int) ∧ (3 : Int) ∈ ([1, 2, 3] : List Int) :=
  accumulation_rows_in_query_and_table
    ⟨[1, 2, 3], [("CatAreaSqKm", [some 1, some 1, some 1]),
                 ("CatMetric", [some 10, some 10, some 10])]⟩
    [1, 2, 3, 99] [0, 0, 2, 1] [1, 2, 3] "UpCat"
    ⟨["UpCatAreaSqKm", "UpCatMetric"],
     [(1, [some 0, none]), (2, [some 0, none]), (3, [some 2, some 20])]⟩
    (by decide) (3, [some 2, some 20]) (by decide)

theorem getD_const_none (vs : List (Option ℚ)) (p : Nat) :
    (vs.map (fun _ => (none : Option ℚ))).getD p none = none := by
  induction vs generalizing p with
  | nil => rfl
  | cons v vs ih =>
    cases p with
    | zero => rfl
    | succ p2 => exact ih p2

/-- C2 counterexample: a catchment with zero area.  The claim predicts the
missing-value sentinel in every derived column, but the derived
accumulated-area column itself keeps the numeric zero (`some 0`), so not
every derived cell of the zero-area row is the sentinel. -/
theorem zero_area_area_column_not_nan :
    Accumulation ⟨[4], [("CatAreaSqKm", [some 0]), ("CatMetric", [some 10])]⟩
        [4] [1] [4] "Ws"
      = some ⟨["WsAreaSqKm", "WsMetric"], [(4, [some 0, none])]⟩ ∧
    ¬ (∀ c ∈ [some (0 : ℚ), (none : Option ℚ)], c = none) :=
  ⟨by decide, by decide⟩

/-- C2 amended: in the Accumulation output, a row whose area cell is the
number zero has every column after the area position (full-header
positions 2 and beyond, that is value positions 1 and beyond) overwritten
with the missing-value sentinel; the area column itself keeps its numeric
zero. -/
theorem zero_area_masks_trailing_columns (arr : CatTable) (COMIDs : List Int)
    (lengths : List Nat) (upStream : List Int) (ty : String) (out : OutTable)
    (h : Accumulation arr COMIDs lengths upStream ty = some out)
    (aIdx : Nat) (ha : lastAreaIdx out.colNames = some aIdx)
    (r : Int × List (Option ℚ)) (hr : r ∈ out.rows)
    (h0 : fullCell r aIdx = some 0) :
    ∀ p, 1 ≤ p → r.2.getD p none = none := by
  obtain ⟨names, aIdx2, hrn, hla, hout⟩ := accumulation_eq_some _ _ _ _ _ _ h
  subst hout
  have ha2 : lastAreaIdx names = some aIdx := ha
  rw [hla] at ha2
  have haeq : aIdx2 = aIdx := Option.some.inj ha2
  subst haeq
  obtain ⟨r0, hr0, hmask⟩ := List.mem_map.mp hr
  by_cases hc : fullCell r0 aIdx2 = some 0
  · have h2 : r.2 = (match r0.2 with
        | [] => []
        | v :: vs => v :: vs.map (fun _ => (none : Option ℚ))) := by
      rw [← hmask]
      unfold maskRow
      rw [if_pos hc]
    intro p hp
    rw [h2]
    cases r0.2 with
    | nil => cases p <;> rfl
    | cons v vs =>
      cases p with
      | zero => omega
      | succ p2 => exact getD_const_none vs p2
  · have h2 : r = r0 := by
      rw [← hmask]
      unfold maskRow
      rw [if_neg hc]
    rw [h2] at h0
    exact absurd h0 hc

/-- Witness for the amended C2: the zero-area row of the C2 run has its
single trailing column masked to the sentinel. -/
theorem zero_area_masks_trailing_columns_witness :
    (((4 : Int), [some (0 : ℚ), (none : Option ℚ)]) :
        Int × List (Option ℚ)).2.getD 1 none = none :=
  zero_area_masks_trailing_columns
    ⟨[4], [("CatAreaSqKm", [some 0]), ("CatMetric", [some 10])]⟩ [4] [1] [4] "Ws"
    ⟨["WsAreaSqKm", "WsMetric"], [(4, [some 0, none])]⟩ (by decide)
    1 (by decide) (4, [some 0, none]) (by decide) (by decide) 1 (by decide)

/-! ## BFS termination and closure membership, C9 and C4 -/

theorem treeGet_length_le (tree : List (Int × List Int)) (c : Int) :
    (treeGet tree c).length ≤ srcWeight tree c := by
  induction tree with
  | nil => simp [treeGet, dictGet, srcWeight]
  | cons p m ih =>
    by_cases h : p.1 = c
    · show ((dictGet (p :: m) c).getD []).length ≤ _
      simp only [dictGet, if_pos h, srcWeight, if_pos h, Option.getD_some]
      exact Nat.le_add_right _ _
    · show ((dictGet (p :: m) c).getD []).length ≤ _
      simp only [dictGet, if_neg h, srcWeight, if_neg h, Nat.zero_add]
      exact ih

theorem keyCost_visit (tree : List (Int × List Int)) (visited : List Int) (c : Int)
    (hc : c ∉ visited) :
    keyCost tree (visited ++ [c]) + srcWeight tree c = keyCost tree visited := by
  induction tree with
  | nil => simp [keyCost, srcWeight]
  | cons p m ih =>
    simp only [keyCost, srcWeight]
    by_cases h : p.1 = c
    · have h1 : p.1 ∈ visited ++ [c] := by simp [h]
      have h2 : p.1 ∉ visited := by rw [h]; exact hc
      rw [if_pos h1, if_neg h2, if_pos h]
      omega
    · by_cases hv : p.1 ∈ visited
      · have h1 : p.1 ∈ visited ++ [c] := List.mem_append_left _ hv
        rw [if_pos h1, if_pos hv, if_neg h]
        omega
      · have h1 : p.1 ∉ visited ++ [c] := by simp [hv, h]
        rw [if_neg h1, if_neg hv, if_neg h]
        omega

theorem bfsAux_total (tree : List (Int × List Int)) :
    ∀ fuel q visited, q.length + keyCost tree visited ≤ fuel →
      ∃ r, bfsAux tree fuel q visited = some r := by
  intro fuel
  induction fuel with
  | zero =>
    intro q visited h
    cases q with
    | nil => exact ⟨visited, rfl⟩
    | cons a l => simp at h
  | succ fuel ih =>
    intro q visited h
    cases q with
    | nil => exact ⟨visited, rfl⟩
    | cons c rest =>
      by_cases hc : c ∈ visited
      · obtain ⟨r, hr⟩ := ih rest visited (by simp only [List.length_cons] at h; omega)
        refine ⟨r, ?_⟩
        show (if c ∈ visited then bfsAux tree fuel rest visited
          else bfsAux tree fuel (((treeGet tree c).dedup.filter
            (fun x => decide (x ∉ visited ++ [c]))) ++ rest) (visited ++ [c])) = some r
        rw [if_pos hc]
        exact hr
      · have hw : ((treeGet tree c).dedup.filter
            (fun x => decide (x ∉ visited ++ [c]))).length ≤ srcWeight tree c :=
          le_trans (List.length_filter_le _ _)
            (le_trans (List.dedup_sublist _).length_le (treeGet_length_le tree c))
        have hkc := keyCost_visit tree visited c hc
        have hle : (((treeGet tree c).dedup.filter
              (fun x => decide (x ∉ visited ++ [c]))) ++ rest).length
            + keyCost tree (visited ++ [c]) ≤ fuel := by
          simp only [List.length_append] at h ⊢
          simp only [List.length_cons] at h
          omega
        obtain ⟨r, hr⟩ := ih _ _ hle
        refine ⟨r, ?_⟩
        show (if c ∈ visited then bfsAux tree fuel rest visited
          else bfsAux tree fuel (((treeGet tree c).dedup.filter
            (fun x => decide (x ∉ visited ++ [c]))) ++ rest) (visited ++ [c])) = some r
        rw [if_neg hc]
        exact hr

theorem keyCost_nil (tree : List (Int × List Int)) :
    keyCost tree [] = (tree.map (fun p => p.2.length)).sum := by
  induction tree with
  | nil => rfl
  | cons p m ih => simp [keyCost, ih]

theorem bfsRun_some (tree : List (Int × List Int)) (token : Int) :
    ∃ r, bfsAux tree (fuelBound tree) [token] [] = some r := by
  apply bfsAux_total
  rw [keyCost_nil]
  simp only [fuelBound, List.length_cons, List.length_nil]
  omega

theorem bfsAux_mem (tree : List (Int × List Int)) :
    ∀ fuel q visited r, bfsAux tree fuel q visited = some r →
      (∀ x ∈ visited, x ∈ r) ∧ (∀ x ∈ q, x ∈ r) := by
  intro fuel
  induction fuel with
  | zero =>
    intro q visited r h
    cases q with
    | nil =>
      have hvr : visited = r := by simpa [bfsAux] using h
      subst hvr
      exact ⟨fun x hx => hx, by simp⟩
    | cons c rest => simp [bfsAux] at h
  | succ fuel ih =>
    intro q visited r h
    cases q with
    | nil =>
      have hvr : visited = r := by simpa [bfsAux] using h
      subst hvr
      exact ⟨fun x hx => hx, by simp⟩
    | cons c rest =>
      by_cases hc : c ∈ visited
      · rw [show bfsAux tree (fuel + 1) (c :: rest) visited
            = bfsAux tree fuel rest visited from by simp [bfsAux, hc]] at h
        obtain ⟨h1, h2⟩ := ih _ _ _ h
        refine ⟨h1, ?_⟩
        intro x hx
        rcases List.mem_cons.mp hx with rfl | hx2
        · exact h1 x hc
        · exact h2 x hx2
      · rw [show bfsAux tree (fuel + 1) (c :: rest) visited
            = bfsAux tree fuel (((treeGet tree c).dedup.filter
                (fun x => decide (x ∉ visited ++ [c]))) ++ rest) (visited ++ [c])
            from by simp [bfsAux, hc]] at h
        obtain ⟨h1, h2⟩ := ih _ _ _ h
        refine ⟨fun x hx => h1 x (List.mem_append_left _ hx), ?_⟩
        intro x hx
        rcases List.mem_cons.mp hx with rfl | hx2
        · exact h1 x (List.mem_append_right _ (by simp))
        · exact h2 x (List.mem_append_right _ hx2)

theorem bfsAux_nodup (tree : List (Int × List Int)) :
    ∀ fuel q visited r, bfsAux tree fuel q visited = some r →
      visited.Nodup → r.Nodup := by
  intro fuel
  induction fuel with
  | zero =>
    intro q visited r h hnd
    cases q with
    | nil =>
      have hvr : visited = r := by simpa [bfsAux] using h
      subst hvr
      exact hnd
    | cons c rest => simp [bfsAux] at h
  | succ fuel ih =>
    intro q visited r h hnd
    cases q with
    | nil =>
      have hvr : visited = r := by simpa [bfsAux] using h
      subst hvr
      exact hnd
    | cons c rest =>
      by_cases hc : c ∈ visited
      · rw [show bfsAux tree (fuel + 1) (c :: rest) visited
            = bfsAux tree fuel rest visited from by simp [bfsAux, hc]] at h
        exact ih _ _ _ h hnd
      · rw [show bfsAux tree (fuel + 1) (c :: rest) visited
            = bfsAux tree fuel (((treeGet tree c).dedup.filter
                (fun x => decide (x ∉ visited ++ [c]))) ++ rest) (visited ++ [c])
            from by simp [bfsAux, hc]] at h
        refine ih _ _ _ h ?_
        rw [List.nodup_append]
        refine ⟨hnd, List.nodup_singleton c, ?_⟩
        intro a ha hb
        rw [List.mem_singleton] at hb
        subst hb
        exact hc ha

/-- C9: the BFS loop of children and bastards runs to completion within the
a-priori iteration budget `fuelBound` on every finite adjacency dictionary
— cyclic ones included, since the visited set never lets a node be
expanded twice — and both functions are computed from that completed
traversal. -/
theorem bfs_terminates_with_fuel_bound (tree : List (Int × List Int)) (token : Int)
    (chkset : Option (List Int)) :
    ∃ r, bfsAux tree (fuelBound tree) [token] [] = some r ∧
      children token tree chkset = applyChk chkset r ∧
      bastards token tree chkset = applyChk chkset (r.erase token) := by
  obtain ⟨r, hr⟩ := bfsRun_some tree token
  refine ⟨r, hr, ?_, ?_⟩
  · simp [children, bfsRun, hr]
  · simp [bastards, bfsRun, hr]

/-- C4 counterexample: with a universe set not containing the start node,
the inclusive closure does not contain the start node, against the claim
that it does for every optional universe set. -/
theorem children_chkset_excludes_token :
    ¬ ((1 : Int) ∈ children 1 [] (some [2])) := by decide

/-- C4 amended: the inclusive closure `children` contains the start node
whenever the universe set is absent or contains it, and the exclusive
closure `bastards` never contains the start node. -/
theorem children_mem_bastards_not_mem (token : Int) (tree : List (Int × List Int))
    (chkset : Option (List Int)) (h : ∀ chk, chkset = some chk → token ∈ chk) :
    token ∈ children token tree chkset ∧ token ∉ bastards token tree chkset := by
  obtain ⟨r, hr⟩ := bfsRun_some tree token
  have hrun : bfsRun tree token = r := by rw [bfsRun, hr]; rfl
  have hmem : token ∈ r := (bfsAux_mem tree _ _ _ _ hr).2 token (by simp)
  have hnd : r.Nodup := bfsAux_nodup tree _ _ _ _ hr List.nodup_nil
  have hne : token ∉ r.erase token := hnd.not_mem_erase
  constructor
  · unfold children
    rw [hrun]
    cases chkset with
    | none => exact hmem
    | some chk =>
      show token ∈ r.filter (fun x => decide (x ∈ chk))
      rw [List.mem_filter]
      exact ⟨hmem, by simpa using h chk rfl⟩
  · unfold bastards
    rw [hrun]
    cases chkset with
    | none => exact hne
    | some chk =>
      show token ∉ (r.erase token).filter (fun x => decide (x ∈ chk))
      intro hx
      exact hne (List.mem_filter.mp hx).1

/-- Witness for the amended C4: a concrete one-edge graph with no universe
set. -/
theorem children_mem_bastards_not_mem_witness :
    (5 : Int) ∈ children 5 [(5, [6])] none ∧ (5 : Int) ∉ bastards 5 [(5, [6])] none :=
  children_mem_bastards_not_mem 5 [(5, [6])] none (fun chk hchk => by cases hchk)

/-! ## swapper correctness, C10 -/

theorem mem_insertIdx (coms : List Int) (i : Nat) (l : List Nat) (x : Nat) :
    x ∈ insertIdx coms i l ↔ x = i ∨ x ∈ l := by
  induction l with
  | nil => simp [insertIdx]
  | cons j js ih =>
    simp only [insertIdx]
    split
    · simp [List.mem_cons]
    · simp only [List.mem_cons, ih]
      tauto

theorem sorted_insertIdx (coms : List Int) (i : Nat) (l : List Nat)
    (hl : l.Pairwise (fun a b => keyOf coms a ≤ keyOf coms b)) :
    (insertIdx coms i l).Pairwise (fun a b => keyOf coms a ≤ keyOf coms b) := by
  induction l with
  | nil => simp [insertIdx]
  | cons j js ih =>
    rw [List.pairwise_cons] at hl
    obtain ⟨hj, hjs⟩ := hl
    simp only [insertIdx]
    split
    · rename_i hle
      rw [List.pairwise_cons]
      refine ⟨?_, ?_⟩
      · intro b hb
        rcases List.mem_cons.mp hb with rfl | hb2
        · exact hle
        · exact le_trans hle (hj b hb2)
      · rw [List.pairwise_cons]
        exact ⟨hj, hjs⟩
    · rename_i hgt
      have hji : keyOf coms j ≤ keyOf coms i := le_of_not_le hgt
      rw [List.pairwise_cons]
      refine ⟨?_, ih hjs⟩
      intro b hb
      rcases (mem_insertIdx coms i js b).mp hb with rfl | hb2
      · exact hji
      · exact hj b hb2

theorem mem_argsort (coms : List Int) (x : Nat) :
    x ∈ argsort coms ↔ x ∈ List.range coms.length := by
  unfold argsort
  generalize List.range coms.length = l
  induction l with
  | nil => simp
  | cons a l ih =>
    simp only [List.foldr_cons, mem_insertIdx, ih, List.mem_cons]

theorem sorted_argsort (coms : List Int) :
    (argsort coms).Pairwise (fun a b => keyOf coms a ≤ keyOf coms b) := by
  unfold argsort
  generalize List.range coms.length = l
  induction l with
  | nil => simp
  | cons a l ih => exact sorted_insertIdx coms a _ ih

theorem searchsorted_mem (s : List Int) (v : Int)
    (hs : s.Pairwise (· ≤ ·)) (hv : v ∈ s) :
    searchsorted s v < s.length ∧ s.get? (searchsorted s v) = some v := by
  induction s with
  | nil => cases hv
  | cons a rest ih =>
    rw [List.pairwise_cons] at hs
    obtain ⟨ha, hrest⟩ := hs
    by_cases h : a < v
    · have hv2 : v ∈ rest := by
        rcases List.mem_cons.mp hv with rfl | h2
        · exact absurd h (lt_irrefl v)
        · exact h2
      obtain ⟨h1, h2⟩ := ih hrest hv2
      refine ⟨?_, ?_⟩
      · show (if a < v then searchsorted rest v + 1 else 0) < (a :: rest).length
        rw [if_pos h]
        simpa using Nat.succ_lt_succ h1
      · show (a :: rest).get? (if a < v then searchsorted rest v + 1 else 0) = some v
        rw [if_pos h]
        simpa using h2
    · have hav : v ≤ a := not_lt.mp h
      have heq : a = v := by
        rcases List.mem_cons.mp hv with rfl | h2
        · rfl
        · exact le_antisymm (le_trans (ha v h2) (le_refl v)) hav
      refine ⟨?_, ?_⟩
      · show (if a < v then searchsorted rest v + 1 else 0) < (a :: rest).length
        rw [if_neg h]
        simp
      · show (a :: rest).get? (if a < v then searchsorted rest v + 1 else 0) = some v
        rw [if_neg h]
        simp [heq]

theorem swapper_member (coms : List Int) (u : Int) (hu : u ∈ coms) :
    ∃ i, (argsort coms).get? (searchsorted ((argsort coms).map (keyOf coms)) u) = some i
      ∧ coms.getD i 0 = u := by
  have hsorted : ((argsort coms).map (keyOf coms)).Pairwise (· ≤ ·) := by
    rw [List.pairwise_map]
    exact sorted_argsort coms
  have humem : u ∈ (argsort coms).map (keyOf coms) := by
    obtain ⟨n, hn, hval⟩ := List.mem_iff_getElem.mp hu
    have hna : n ∈ argsort coms := (mem_argsort coms n).mpr (List.mem_range.mpr hn)
    have hkey : keyOf coms n = u := by
      unfold keyOf
      rw [List.getD_eq_getElem _ _ hn]
      exact hval
    exact hkey ▸ List.mem_map_of_mem (keyOf coms) hna
  obtain ⟨hlt, hget⟩ := searchsorted_mem _ u hsorted humem
  have hlen : searchsorted ((argsort coms).map (keyOf coms)) u < (argsort coms).length := by
    rwa [List.length_map] at hlt
  obtain ⟨i, hi⟩ : ∃ i, (argsort coms).get?
      (searchsorted ((argsort coms).map (keyOf coms)) u) = some i := by
    rw [List.get?_eq_getElem?, List.getElem?_eq_getElem hlen]
    exact ⟨_, rfl⟩
  refine ⟨i, hi, ?_⟩
  have hmap : ((argsort coms).map (keyOf coms)).get?
      (searchsorted ((argsort coms).map (keyOf coms)) u) = some (keyOf coms i) := by
    rw [List.get?_eq_getElem?] at hi ⊢
    rw [List.getElem?_map, hi]
    rfl
  rw [hmap] at hget
  exact Option.some.inj hget

/-- C10: when `coms` has no duplicates and every upstream id occurs in
`coms`, the indices produced by swapper resolve each upstream id to a
position of `coms` holding exactly that id.  The membership precondition
is unchecked: the probe 20, absent from [10, 30], silently resolves to
the unrelated row holding 30, and the probe 40 resolves to an
out-of-range position (the IndexError case), never to a checked error. -/
theorem swapper_resolves_members :
    (∀ (coms upStream : List Int), coms.Nodup → (∀ u ∈ upStream, u ∈ coms) →
      (swapper coms upStream).map (fun oi => oi.map (fun i => coms.getD i 0))
        = upStream.map some) ∧
    swapper [10, 30] [20] = [some 1] ∧ ([10, 30] : List Int).getD 1 0 = 30 ∧
    swapper [10, 30] [40] = [none] := by
  refine ⟨?_, by decide, by decide, by decide⟩
  intro coms upStream hnd hmem
  simp only [swapper, List.map_map]
  apply List.map_congr_left
  intro u hu
  obtain ⟨i, hi, hkey⟩ := swapper_member coms u (hmem u hu)
  simp only [Function.comp_apply]
  rw [hi]
  simp only [Option.map_some']
  rw [hkey]

/-- Witness for C10: a duplicate-free two-row table with both probes
present resolves exactly. -/
theorem swapper_resolves_members_witness :
    (swapper [5, 9] [9, 5]).map (fun oi => oi.map (fun i => ([5, 9] : List Int).getD i 0))
      = ([9, 5] : List Int).map some :=
  swapper_resolves_members.1 [5, 9] [9, 5] (by decide) (by decide)

end StreamCat
